import Mathlib

/-!
Shallow embedding of `src/geometrical_shapes.rs`: a small rasterizer with
points, lines (Bresenham's algorithm), triangles and rectangles (decomposed
into lines) and circles (midpoint algorithm).  A shape's `draw` is modelled
as the list of `(x, y, color)` writes it sends to the pixel sink, in
emission order.  Machine integers (`i32`) are modelled as `Int`; the claims
under study concern inputs with no overflow, which the `Int` model captures
directly.  The unbounded Rust `loop` of the line rasterizer is modelled
with explicit fuel returning `Option`, and the theorems show the chosen
fuel always suffices; the `while x <= y` circle loop is modelled by
well-founded recursion on `(y + 1 - x).toNat`.
-/

namespace GS

/-- RGB color triple: the `raster::Color` collaborator, used by the core
only as an opaque value built with `Color::rgb`. -/
structure Color where
  r : Nat
  g : Nat
  b : Nat
deriving Repr, DecidableEq

/-- Constructor `Color::rgb`. -/
def Color.rgb (r g b : Nat) : Color := ⟨r, g, b⟩

/-- A single pixel write `(x, y, color)` sent to the `Displayable` sink. -/
abbrev Pix := Int × Int × Color

/-- Rust `struct Point { x, y, color }`. -/
structure Point where
  x : Int
  y : Int
  color : Color
deriving Repr, DecidableEq

/-- Constructor `Point::new`: fixed red default color. -/
def Point.new (x y : Int) : Point := ⟨x, y, Color.rgb 255 0 0⟩

/-- Point drawing: one write at `(x, y)` with the point's own color. -/
def Point.draw (p : Point) : List Pix := [(p.x, p.y, p.color)]

/-- Rust `struct Line { start, end, color }` (`end` is a Lean keyword, so
the second field is named `endp`). -/
structure Line where
  start : Point
  endp : Point
  color : Color
deriving Repr, DecidableEq

/-- Constructor `Line::new`: clones both endpoints, fixed green default
color. -/
def Line.new (start endp : Point) : Line := ⟨start, endp, Color.rgb 0 255 0⟩

/-- The `loop { ... }` body of `Line::draw_line` (Bresenham).  The
arguments `x1 y1 dx dy sx sy` are the loop-invariant locals computed before
the loop; `x0 y0 err` are the mutable state.  The Rust loop is unbounded;
it is modelled with explicit fuel, returning `none` if the `break` is not
reached within the fuel.  The theorem `draw_line_spec` shows the fuel
chosen in `Line.draw_line` is always sufficient. -/
def bresLoop (x1 y1 dx dy sx sy : Int) (c : Color) :
    Nat → Int → Int → Int → Option (List Pix)
  | 0, _, _, _ => none
  | fuel + 1, x0, y0, err =>
    if x0 = x1 ∧ y0 = y1 then
      some [(x0, y0, c)]
    else
      let e2 := 2 * err
      let x0' := if e2 > -dy then x0 + sx else x0
      let err1 := if e2 > -dy then err - dy else err
      let y0' := if e2 < dx then y0 + sy else y0
      let err2 := if e2 < dx then err1 + dx else err1
      Option.map (fun ps => (x0, y0, c) :: ps)
        (bresLoop x1 y1 dx dy sx sy c fuel x0' y0' err2)

/-- Rust `Line::draw_line`, Bresenham's line algorithm: `dx = |x1-x0|`,
`dy = |y1-y0|`, step signs `sx, sy` toward the target, error accumulator
starting at `dx - dy`.  The fuel `dx + dy + 1` bounds the number of loop
iterations (proved sufficient in `draw_line_spec`). -/
def Line.draw_line (l : Line) : Option (List Pix) :=
  let x0 := l.start.x
  let y0 := l.start.y
  let x1 := l.endp.x
  let y1 := l.endp.y
  let dx := |x1 - x0|
  let dy := |y1 - y0|
  let sx : Int := if x0 < x1 then 1 else -1
  let sy : Int := if y0 < y1 then 1 else -1
  bresLoop x1 y1 dx dy sx sy l.color ((dx + dy).toNat + 1) x0 y0 (dx - dy)

/-- Line drawing (the `Drawable` impl forwards to `draw_line`). -/
def Line.draw (l : Line) : Option (List Pix) := l.draw_line

/-- Rust `struct Triangle { p1, p2, p3, color }`. -/
structure Triangle where
  p1 : Point
  p2 : Point
  p3 : Point
  color : Color
deriving Repr, DecidableEq

/-- Constructor `Triangle::new`: clones the three points, fixed blue
default color. -/
def Triangle.new (p1 p2 p3 : Point) : Triangle := ⟨p1, p2, p3, Color.rgb 0 0 255⟩

/-- Triangle drawing: builds the three side lines with `Line::new`,
rebuilds each with the triangle's own color (`temp_line1..3`), and draws
them in order; the sink trace is the concatenation of the three line
traces. -/
def Triangle.draw (t : Triangle) : Option (List Pix) :=
  let line1 := Line.new t.p1 t.p2
  let line2 := Line.new t.p2 t.p3
  let line3 := Line.new t.p3 t.p1
  let temp_line1 : Line := ⟨line1.start, line1.endp, t.color⟩
  let temp_line2 : Line := ⟨line2.start, line2.endp, t.color⟩
  let temp_line3 : Line := ⟨line3.start, line3.endp, t.color⟩
  match temp_line1.draw, temp_line2.draw, temp_line3.draw with
  | some a, some b, some c => some (a ++ b ++ c)
  | _, _, _ => none

/-- Rust `struct Rectangle { top_left, bottom_right, color }`. -/
structure Rectangle where
  top_left : Point
  bottom_right : Point
  color : Color
deriving Repr, DecidableEq

/-- Constructor `Rectangle::new`: normalizes the two corners so that
`top_left` holds the coordinate-wise minimum and `bottom_right` the
coordinate-wise maximum. -/
def Rectangle.new (p1 p2 : Point) : Rectangle :=
  { top_left := Point.new (min p1.x p2.x) (min p1.y p2.y)
    bottom_right := Point.new (max p1.x p2.x) (max p1.y p2.y)
    color := Color.rgb 255 255 0 }

/-- Rectangle drawing: synthesizes the other two corners, builds the four
side lines, overrides their colors with the rectangle's, draws them in
order. -/
def Rectangle.draw (rc : Rectangle) : Option (List Pix) :=
  let top_right := Point.new rc.bottom_right.x rc.top_left.y
  let bottom_left := Point.new rc.top_left.x rc.bottom_right.y
  let line1 : Line := { Line.new rc.top_left top_right with color := rc.color }
  let line2 : Line := { Line.new top_right rc.bottom_right with color := rc.color }
  let line3 : Line := { Line.new rc.bottom_right bottom_left with color := rc.color }
  let line4 : Line := { Line.new bottom_left rc.top_left with color := rc.color }
  match line1.draw, line2.draw, line3.draw, line4.draw with
  | some a, some b, some c, some d => some (a ++ b ++ c ++ d)
  | _, _, _, _ => none

/-- Rust `struct Circle { center, radius, color }`. -/
structure Circle where
  center : Point
  radius : Int
  color : Color
deriving Repr, DecidableEq

/-- Constructor `Circle::new`: clones the center, stores the radius
unchanged (no validation), fixed magenta default color. -/
def Circle.new (center : Point) (radius : Int) : Circle :=
  ⟨center, radius, Color.rgb 255 0 255⟩

/-- The `while x <= y` loop of `Circle::draw_circle` (midpoint algorithm):
emits the 8 octant pixels, then updates the decision variable `d` and the
state `(x, y)`.  `x` strictly increases and `y` never increases, so
`(y + 1 - x).toNat` is a decreasing measure. -/
def circleLoop (cx cy : Int) (c : Color) (x y d : Int) : List Pix :=
  if _h : x ≤ y then
    [(cx + x, cy + y, c), (cx - x, cy + y, c), (cx + x, cy - y, c), (cx - x, cy - y, c),
     (cx + y, cy + x, c), (cx - y, cy + x, c), (cx + y, cy - x, c), (cx - y, cy - x, c)]
    ++ (if d < 0 then circleLoop cx cy c (x + 1) y (d + 2 * x + 3)
        else circleLoop cx cy c (x + 1) (y - 1) (d + 2 * (x - y) + 5))
  else []
termination_by (y + 1 - x).toNat
decreasing_by
  · omega
  · omega

/-- Rust `Circle::draw_circle`: midpoint circle algorithm starting from
`x = 0, y = r, d = 1 - r`. -/
def Circle.draw_circle (ci : Circle) : List Pix :=
  circleLoop ci.center.x ci.center.y ci.color 0 ci.radius (1 - ci.radius)

/-- Circle drawing (the `Drawable` impl forwards to `draw_circle`). -/
def Circle.draw (ci : Circle) : List Pix := ci.draw_circle

/-- The three boundary Lines of a Triangle, re-colored to the Triangle's
color, exactly as the spec describes them: the edges `(p1,p2)`, `(p2,p3)`,
`(p3,p1)` with each Line's color replaced by the Triangle's. -/
def triangle_edge_lines (t : Triangle) : Line × Line × Line :=
  ({ Line.new t.p1 t.p2 with color := t.color },
   { Line.new t.p2 t.p3 with color := t.color },
   { Line.new t.p3 t.p1 with color := t.color })

/-- Half-up rounding of the real square root of a natural number, computed
in integer arithmetic as `(sqrt (4 * s) + 1) / 2`. -/
def roundNatSqrt (s : Nat) : Nat := (Nat.sqrt (4 * s) + 1) / 2

/-- The half-up rounded Euclidean distance from `(px, py)` to `(cx, cy)`:
`round (sqrt ((px-cx)^2 + (py-cy)^2))`, as an integer. -/
def roundDist (px py cx cy : Int) : Int :=
  (roundNatSqrt (((px - cx) ^ 2 + (py - cy) ^ 2).toNat) : Nat)

/-- Reflection of a pixel write through the horizontal axis `y = cy`. -/
def reflectH (cy : Int) (p : Pix) : Pix := (p.1, 2 * cy - p.2.1, p.2.2)

/-- Reflection of a pixel write through the vertical axis `x = cx`. -/
def reflectV (cx : Int) (p : Pix) : Pix := (2 * cx - p.1, p.2.1, p.2.2)

/-- Auxiliary list fact: consing onto a non-empty list keeps its last
element. -/
theorem getLast?_cons_of_ne_nil {α : Type} (a : α) (l : List α) (h : l ≠ []) :
    (a :: l).getLast? = l.getLast? := by
  cases l with
  | nil => exact absurd rfl h
  | cons b t => rfl

/-- The step sign computed by `draw_line` points from start to target:
`b - a = d * s` where `d` is the absolute difference. -/
theorem step_sign (a b d s : Int) (hd : d = |b - a|) (hs : s = if a < b then 1 else -1) :
    b - a = d * s ∧ 0 ≤ d ∧ (s = 1 ∨ s = -1) := by
  rcases lt_or_ge a b with h | h
  · rw [if_pos h] at hs
    subst hs
    rw [abs_of_pos (by omega)] at hd
    omega
  · rw [if_neg (not_lt.2 h)] at hs
    subst hs
    rw [abs_of_nonpos (by omega)] at hd
    omega

/-- If the x-cursor has already arrived (`i = dx` x-steps taken) and the
error accumulator still allows an x-step, the y-cursor has arrived too. -/
theorem bres_no_overshoot_y (dx dy j : Int) (hdx : 0 ≤ dx) (_hdy : 0 ≤ dy) (hj : 0 ≤ j)
    (hgt : -dy < 2 * (dx - dy - dx * dy + j * dx)) : dy ≤ j := by
  by_contra hcon
  push_neg at hcon
  have hm : 2 * dx * (j + 1) ≤ 2 * dx * dy :=
    mul_le_mul_of_nonneg_left (by omega) (by omega)
  nlinarith [hm, hgt]

/-- If the y-cursor has already arrived (`j = dy` y-steps taken) and the
error accumulator still allows a y-step, the x-cursor has arrived too. -/
theorem bres_no_overshoot_x (dx dy i : Int) (_hdx : 0 ≤ dx) (hdy : 0 ≤ dy) (hi : 0 ≤ i)
    (hlt : 2 * (dx - dy - i * dy + dy * dx) < dx) : dx ≤ i := by
  by_contra hcon
  push_neg at hcon
  have hm : 2 * dy * (i + 1) ≤ 2 * dy * dx :=
    mul_le_mul_of_nonneg_left (by omega) (by omega)
  nlinarith [hm, hlt]

/-- Bresenham loop invariant, x-major octants (`dy ≤ dx`, `dx > 0`): from a
state that has taken `i` x-steps and `j` y-steps, the loop reaches the
endpoint after exactly `dx - i` further iterations, emitting one pixel per
iteration, starting at the current position and ending at the endpoint. -/
theorem bresLoop_spec_xmajor (x0i y0i x1 y1 dx dy sx sy : Int) (c : Color)
    (hdx : dx = |x1 - x0i|) (hdy : dy = |y1 - y0i|)
    (hsx : sx = if x0i < x1 then 1 else -1)
    (hsy : sy = if y0i < y1 then 1 else -1)
    (hmaj : dy ≤ dx) (_hpos : 0 < dx) :
    ∀ fuel : Nat, ∀ i j err : Int,
      0 ≤ i → i ≤ dx → 0 ≤ j → j ≤ dy →
      err = dx - dy - i * dy + j * dx →
      -dy < 2 * err →
      (2 * err < dx ∨ dy < dx) →
      (dx - i).toNat < fuel →
      ∃ ps : List Pix,
        bresLoop x1 y1 dx dy sx sy c fuel (x0i + i * sx) (y0i + j * sy) err = some ps ∧
        ps.length = (dx - i).toNat + 1 ∧
        ps.head? = some (x0i + i * sx, y0i + j * sy, c) ∧
        ps.getLast? = some (x1, y1, c) := by
  obtain ⟨hex, hdx0, hsx1⟩ := step_sign x0i x1 dx sx hdx hsx
  obtain ⟨hey, hdy0, hsy1⟩ := step_sign y0i y1 dy sy hdy hsy
  intro fuel
  induction fuel with
  | zero => intro i j err _ _ _ _ _ _ _ hfuel; omega
  | succ fuel ih =>
    intro i j err hi0 hidx hj0 hjdy herr hinv1 hinv2 hfuel
    by_cases hend : i = dx
    · -- the x-cursor has arrived: the loop breaks here
      subst i
      have hjdy' : dy ≤ j := by
        apply bres_no_overshoot_y dx dy j hdx0 hdy0 hj0
        rw [herr] at hinv1
        exact hinv1
      have hj' : j = dy := le_antisymm hjdy hjdy'
      subst j
      have hx0 : x0i + dx * sx = x1 := by
        rcases hsx1 with h | h <;> (rw [h] at hex ⊢; omega)
      have hy0 : y0i + dy * sy = y1 := by
        rcases hsy1 with h | h <;> (rw [h] at hey ⊢; omega)
      refine ⟨[(x1, y1, c)], ?_, by simp, ?_, by simp⟩
      · rw [hx0, hy0]
        simp [bresLoop]
      · rw [hx0, hy0]
        rfl
    · have hilt : i < dx := lt_of_le_of_ne hidx hend
      have hxne : x0i + i * sx ≠ x1 := by
        rcases hsx1 with h | h <;> (rw [h] at hex ⊢; omega)
      have hguard : ¬(x0i + i * sx = x1 ∧ y0i + j * sy = y1) := fun hc => hxne hc.1
      by_cases hyc : 2 * err < dx
      · -- both cursors step
        have hjlt : j < dy := by
          rcases eq_or_lt_of_le hjdy with he | hl
          · exfalso
            rw [he] at herr
            rw [herr] at hyc
            have := bres_no_overshoot_x dx dy i hdx0 hdy0 hi0 hyc
            omega
          · exact hl
        obtain ⟨ps, hps, hlen, hhead, hlast⟩ := ih (i + 1) (j + 1) (err - dy + dx)
          (by omega) (by omega) (by omega) (by omega)
          (by linear_combination herr) (by omega) (by omega) (by omega)
        refine ⟨(x0i + i * sx, y0i + j * sy, c) :: ps, ?_, ?_, rfl, ?_⟩
        · simp only [bresLoop]
          rw [if_neg hguard]
          simp only [if_pos hinv1, if_pos hyc]
          have e1 : x0i + i * sx + sx = x0i + (i + 1) * sx := by ring
          have e2 : y0i + j * sy + sy = y0i + (j + 1) * sy := by ring
          rw [e1, e2, hps]
          rfl
        · simp only [List.length_cons, hlen]
          omega
        · rw [getLast?_cons_of_ne_nil _ _ (by intro hnil; rw [hnil] at hlen; simp at hlen)]
          exact hlast
      · -- only the x-cursor steps
        have hmaj' : dy < dx := by
          rcases hinv2 with h | h
          · omega
          · exact h
        obtain ⟨ps, hps, hlen, hhead, hlast⟩ := ih (i + 1) j (err - dy)
          (by omega) (by omega) (by omega) (by omega)
          (by linear_combination herr) (by omega) (by omega) (by omega)
        refine ⟨(x0i + i * sx, y0i + j * sy, c) :: ps, ?_, ?_, rfl, ?_⟩
        · simp only [bresLoop]
          rw [if_neg hguard]
          simp only [if_pos hinv1, if_neg hyc]
          have e1 : x0i + i * sx + sx = x0i + (i + 1) * sx := by ring
          rw [e1, hps]
          rfl
        · simp only [List.length_cons, hlen]
          omega
        · rw [getLast?_cons_of_ne_nil _ _ (by intro hnil; rw [hnil] at hlen; simp at hlen)]
          exact hlast

/-- Bresenham loop invariant, y-major octants (`dx < dy`): from a state that
has taken `i` x-steps and `j` y-steps, the loop reaches the endpoint after
exactly `dy - j` further iterations, emitting one pixel per iteration. -/
theorem bresLoop_spec_ymajor (x0i y0i x1 y1 dx dy sx sy : Int) (c : Color)
    (hdx : dx = |x1 - x0i|) (hdy : dy = |y1 - y0i|)
    (hsx : sx = if x0i < x1 then 1 else -1)
    (hsy : sy = if y0i < y1 then 1 else -1)
    (hmaj : dx < dy) :
    ∀ fuel : Nat, ∀ i j err : Int,
      0 ≤ i → i ≤ dx → 0 ≤ j → j ≤ dy →
      err = dx - dy - i * dy + j * dx →
      2 * err < dx →
      (dy - j).toNat < fuel →
      ∃ ps : List Pix,
        bresLoop x1 y1 dx dy sx sy c fuel (x0i + i * sx) (y0i + j * sy) err = some ps ∧
        ps.length = (dy - j).toNat + 1 ∧
        ps.head? = some (x0i + i * sx, y0i + j * sy, c) ∧
        ps.getLast? = some (x1, y1, c) := by
  obtain ⟨hex, hdx0, hsx1⟩ := step_sign x0i x1 dx sx hdx hsx
  obtain ⟨hey, hdy0, hsy1⟩ := step_sign y0i y1 dy sy hdy hsy
  intro fuel
  induction fuel with
  | zero => intro i j err _ _ _ _ _ _ hfuel; omega
  | succ fuel ih =>
    intro i j err hi0 hidx hj0 hjdy herr hinv hfuel
    by_cases hend : j = dy
    · -- the y-cursor has arrived: the x-cursor has arrived too, loop breaks
      subst j
      have hidx' : dx ≤ i := by
        apply bres_no_overshoot_x dx dy i hdx0 hdy0 hi0
        rw [herr] at hinv
        exact hinv
      have hi' : i = dx := le_antisymm hidx hidx'
      subst i
      have hx0 : x0i + dx * sx = x1 := by
        rcases hsx1 with h | h <;> (rw [h] at hex ⊢; omega)
      have hy0 : y0i + dy * sy = y1 := by
        rcases hsy1 with h | h <;> (rw [h] at hey ⊢; omega)
      refine ⟨[(x1, y1, c)], ?_, by simp, ?_, by simp⟩
      · rw [hx0, hy0]
        simp [bresLoop]
      · rw [hx0, hy0]
        rfl
    · have hjlt : j < dy := lt_of_le_of_ne hjdy hend
      have hyne : y0i + j * sy ≠ y1 := by
        rcases hsy1 with h | h <;> (rw [h] at hey ⊢; omega)
      have hguard : ¬(x0i + i * sx = x1 ∧ y0i + j * sy = y1) := fun hc => hyne hc.2
      by_cases hxc : 2 * err > -dy
      · -- both cursors step
        have hilt : i < dx := by
          rcases eq_or_lt_of_le hidx with he | hl
          · exfalso
            rw [he] at herr
            rw [herr] at hxc
            have := bres_no_overshoot_y dx dy j hdx0 hdy0 hj0 hxc
            omega
          · exact hl
        obtain ⟨ps, hps, hlen, hhead, hlast⟩ := ih (i + 1) (j + 1) (err - dy + dx)
          (by omega) (by omega) (by omega) (by omega)
          (by linear_combination herr) (by omega) (by omega)
        refine ⟨(x0i + i * sx, y0i + j * sy, c) :: ps, ?_, ?_, rfl, ?_⟩
        · simp only [bresLoop]
          rw [if_neg hguard]
          simp only [if_pos hxc, if_pos hinv]
          have e1 : x0i + i * sx + sx = x0i + (i + 1) * sx := by ring
          have e2 : y0i + j * sy + sy = y0i + (j + 1) * sy := by ring
          rw [e1, e2, hps]
          rfl
        · simp only [List.length_cons, hlen]
          omega
        · rw [getLast?_cons_of_ne_nil _ _ (by intro hnil; rw [hnil] at hlen; simp at hlen)]
          exact hlast
      · -- only the y-cursor steps
        obtain ⟨ps, hps, hlen, hhead, hlast⟩ := ih i (j + 1) (err + dx)
          (by omega) (by omega) (by omega) (by omega)
          (by linear_combination herr) (by omega) (by omega)
        refine ⟨(x0i + i * sx, y0i + j * sy, c) :: ps, ?_, ?_, rfl, ?_⟩
        · simp only [bresLoop]
          rw [if_neg hguard]
          simp only [if_neg hxc, if_pos hinv]
          have e2 : y0i + j * sy + sy = y0i + (j + 1) * sy := by ring
          rw [e2, hps]
          rfl
        · simp only [List.length_cons, hlen]
          omega
        · rw [getLast?_cons_of_ne_nil _ _ (by intro hnil; rw [hnil] at hlen; simp at hlen)]
          exact hlast

/-- `Line::draw_line` always reaches its `break`: the loop emits exactly
`max |x1-x0| |y1-y0| + 1` pixels, the first at the start point and the last
at the end point, all in the line's color. -/
theorem draw_line_spec (l : Line) :
    ∃ ps : List Pix, l.draw_line = some ps ∧
      ps.length = (max |l.endp.x - l.start.x| |l.endp.y - l.start.y|).toNat + 1 ∧
      ps.head? = some (l.start.x, l.start.y, l.color) ∧
      ps.getLast? = some (l.endp.x, l.endp.y, l.color) := by
  obtain ⟨⟨x0, y0, c0⟩, ⟨x1, y1, c1⟩, c⟩ := l
  simp only [Line.draw_line]
  set dx := |x1 - x0| with hdx
  set dy := |y1 - y0| with hdy
  set sx : Int := if x0 < x1 then 1 else -1 with hsx
  set sy : Int := if y0 < y1 then 1 else -1 with hsy
  have hdx0 : 0 ≤ dx := abs_nonneg _
  have hdy0 : 0 ≤ dy := abs_nonneg _
  by_cases hz : dx = 0 ∧ dy = 0
  · -- start == end: the loop breaks on the first iteration
    have hx : x1 = x0 := by
      have h1 : x1 - x0 = 0 := abs_eq_zero.mp (hdx.symm.trans hz.1)
      omega
    have hy : y1 = y0 := by
      have h1 : y1 - y0 = 0 := abs_eq_zero.mp (hdy.symm.trans hz.2)
      omega
    subst hx
    subst hy
    refine ⟨[(x1, y1, c)], ?_, by rw [hz.1, hz.2]; simp, rfl, rfl⟩
    simp [bresLoop]
  · rcases le_or_lt dy dx with hmaj | hmaj
    · have hpos : 0 < dx := by
        rcases (not_and_or.mp hz) with h | h <;> omega
      obtain ⟨ps, hps, hlen, hh, hl⟩ := bresLoop_spec_xmajor x0 y0 x1 y1 dx dy sx sy c
        hdx hdy hsx hsy hmaj hpos ((dx + dy).toNat + 1) 0 0 (dx - dy)
        le_rfl hdx0 le_rfl hdy0 (by ring) (by omega) (by omega) (by omega)
      refine ⟨ps, by simpa using hps, ?_, by simpa using hh, hl⟩
      rw [max_eq_left hmaj, hlen]
      omega
    · obtain ⟨ps, hps, hlen, hh, hl⟩ := bresLoop_spec_ymajor x0 y0 x1 y1 dx dy sx sy c
        hdx hdy hsx hsy hmaj ((dx + dy).toNat + 1) 0 0 (dx - dy)
        le_rfl hdx0 le_rfl hdy0 (by ring) (by omega) (by omega)
      refine ⟨ps, by simpa using hps, ?_, by simpa using hh, hl⟩
      rw [max_eq_right (le_of_lt hmaj), hlen]
      omega


theorem roundNatSqrt_le (s m : Nat) (h : 4 * s < (2 * m + 1) ^ 2) : roundNatSqrt s ≤ m := by
  have h1 : Nat.sqrt (4 * s) < 2 * m + 1 := by
    rw [Nat.sqrt_lt']
    exact h
  unfold roundNatSqrt
  omega

theorem le_roundNatSqrt (s m : Nat) (h : (2 * m + 1) ^ 2 ≤ 4 * s) : m + 1 ≤ roundNatSqrt s := by
  have h1 : 2 * m + 1 ≤ Nat.sqrt (4 * s) := by
    rw [Nat.le_sqrt']
    exact h
  unfold roundNatSqrt
  omega

/-- Pointwise radial bound for a live state of the midpoint loop: the
decision-variable identity together with the loop-top bounds on `d` confine
the squared distance of `(x, y)` from the origin to `((2r-3)/2, (2r+3)/2)`. -/
theorem midpoint_state_bound (r x y d : Int) (hr : 2 ≤ r) (hx : 0 ≤ x) (hxy : x ≤ y)
    (hd : d = x ^ 2 + 2 * x + y ^ 2 - y + 1 - r ^ 2)
    (hlo : -2 * y + 3 ≤ d) (hup : d ≤ 2 * x + 1) :
    (2 * r - 3) ^ 2 ≤ 4 * (x ^ 2 + y ^ 2) ∧ 4 * (x ^ 2 + y ^ 2) < (2 * r + 3) ^ 2 := by
  subst hd
  have hs_up : x ^ 2 + y ^ 2 ≤ r ^ 2 + y := by linarith
  have hs_lo : r ^ 2 - 2 * x - y + 2 ≤ x ^ 2 + y ^ 2 := by linarith
  have hyr : y ≤ r := by
    by_contra hc
    push_neg at hc
    have hp : 0 ≤ (y - r - 1) * (y + r) := mul_nonneg (by omega) (by omega)
    nlinarith [hs_up, sq_nonneg x, hp]
  constructor
  · by_contra hcon
    push_neg at hcon
    have h1 : 12 * r < 8 * x + 4 * y + 1 := by nlinarith [hcon, hs_lo]
    have h2 : y = r := by omega
    have h3 : x = r := by omega
    subst y
    subst x
    nlinarith [hs_up, mul_le_mul_of_nonneg_right hr (by omega : (0 : Int) ≤ r)]
  · nlinarith [hs_up, hyr, hr]

/-- Transport of the radial bound along an octant reflection: the reflected
offsets have the same squared norm. -/
theorem octant_bound_helper (r x y a b : Int) (hab : a ^ 2 + b ^ 2 = x ^ 2 + y ^ 2)
    (h1 : (2 * r - 3) ^ 2 ≤ 4 * (x ^ 2 + y ^ 2))
    (h2 : 4 * (x ^ 2 + y ^ 2) < (2 * r + 3) ^ 2) :
    (2 * r - 3) ^ 2 ≤ 4 * (a ^ 2 + b ^ 2) ∧ 4 * (a ^ 2 + b ^ 2) < (2 * r + 3) ^ 2 := by
  rw [hab]
  exact ⟨h1, h2⟩

/-- Every pixel emitted from a live midpoint-loop state satisfies the radial
bound: its squared distance from the center lies within `3/2` of `r`. -/
theorem circleLoop_mem_bound (cx cy : Int) (c : Color) (r : Int) (hr : 2 ≤ r) :
    ∀ n : Nat, ∀ x y d : Int, (y + 1 - x).toNat = n → 0 ≤ x →
      d = x ^ 2 + 2 * x + y ^ 2 - y + 1 - r ^ 2 →
      (x ≤ y → -2 * y + 3 ≤ d ∧ d ≤ 2 * x + 1) →
      ∀ px py : Int, ∀ pc : Color, (px, py, pc) ∈ circleLoop cx cy c x y d →
        (2 * r - 3) ^ 2 ≤ 4 * ((px - cx) ^ 2 + (py - cy) ^ 2) ∧
        4 * ((px - cx) ^ 2 + (py - cy) ^ 2) < (2 * r + 3) ^ 2 := by
  intro n
  induction n using Nat.strong_induction_on with
  | _ n ih =>
    intro x y d hn hx hd hbounds px py pc hp
    rw [circleLoop] at hp
    by_cases hxy : x ≤ y
    · rw [dif_pos hxy] at hp
      obtain ⟨hblo, hbup⟩ := hbounds hxy
      have hsb := midpoint_state_bound r x y d hr hx hxy hd hblo hbup
      rcases List.mem_append.mp hp with h8 | htail
      · have hsq : (px - cx) ^ 2 + (py - cy) ^ 2 = x ^ 2 + y ^ 2 := by
          simp only [Prod.mk.injEq, List.mem_cons, List.not_mem_nil, or_false] at h8
          rcases h8 with h | h | h | h | h | h | h | h <;>
            (obtain ⟨ha, hb, -⟩ := h
             subst ha
             subst hb
             ring)
        exact octant_bound_helper r x y _ _ hsq hsb.1 hsb.2
      · by_cases hdlt : d < 0
        · rw [if_pos hdlt] at htail
          exact ih (y + 1 - (x + 1)).toNat (by omega) (x + 1) y (d + 2 * x + 3) rfl
            (by omega) (by linear_combination hd)
            (fun hxy2 => by constructor <;> omega) px py pc htail
        · rw [if_neg hdlt] at htail
          exact ih (y - 1 + 1 - (x + 1)).toNat (by omega) (x + 1) (y - 1)
            (d + 2 * (x - y) + 5) rfl
            (by omega) (by linear_combination hd)
            (fun hxy2 => by constructor <;> omega) px py pc htail
    · rw [dif_neg hxy] at hp
      exact absurd hp (List.not_mem_nil _)

/-- One unfolding fact: the midpoint loop emits nothing once `y < x`. -/
theorem circleLoop_eq_nil (cx cy : Int) (c : Color) (x y d : Int) (h : y < x) :
    circleLoop cx cy c x y d = [] := by
  rw [circleLoop]
  rw [dif_neg (by omega)]

theorem roundNatSqrt_zero : roundNatSqrt 0 = 0 := by
  unfold roundNatSqrt
  norm_num

theorem roundNatSqrt_one : roundNatSqrt 1 = 1 := by
  unfold roundNatSqrt
  have h4 : (4 : Nat) * 1 = 2 * 2 := by norm_num
  rw [h4, Nat.sqrt_eq]


theorem reflectH_involutive (cy : Int) (p : Pix) : reflectH cy (reflectH cy p) = p := by
  obtain ⟨a, b, cl⟩ := p
  simp only [reflectH, Prod.mk.injEq, and_true, true_and] <;> omega

theorem reflectV_involutive (cx : Int) (p : Pix) : reflectV cx (reflectV cx p) = p := by
  obtain ⟨a, b, cl⟩ := p
  simp only [reflectV, Prod.mk.injEq, and_true, true_and] <;> omega

/-- The eight octant pixels of each midpoint-loop step are closed under both
reflections, so the whole emitted list is. -/
theorem circleLoop_reflect_mem (cx cy : Int) (c : Color) :
    ∀ n : Nat, ∀ x y d : Int, (y + 1 - x).toNat = n →
      ∀ p : Pix, p ∈ circleLoop cx cy c x y d →
        reflectH cy p ∈ circleLoop cx cy c x y d ∧
        reflectV cx p ∈ circleLoop cx cy c x y d := by
  intro n
  induction n using Nat.strong_induction_on with
  | _ n ih =>
    intro x y d hn p hp
    rw [circleLoop] at hp ⊢
    by_cases hxy : x ≤ y
    · rw [dif_pos hxy] at hp ⊢
      rcases List.mem_append.mp hp with h8 | htail
      · simp only [List.not_mem_nil, List.mem_cons, or_false] at h8
        constructor <;>
          (apply List.mem_append_left
           rcases h8 with h | h | h | h | h | h | h | h <;> subst h <;>
             (simp only [reflectH, reflectV, List.mem_cons, List.not_mem_nil, or_false,
                Prod.mk.injEq, eq_self_iff_true, and_true, true_and] <;> omega))
      · by_cases hdlt : d < 0
        · rw [if_pos hdlt] at htail ⊢
          have := ih (y + 1 - (x + 1)).toNat (by omega) (x + 1) y (d + 2 * x + 3) rfl p htail
          exact ⟨List.mem_append_right _ this.1, List.mem_append_right _ this.2⟩
        · rw [if_neg hdlt] at htail ⊢
          have := ih (y - 1 + 1 - (x + 1)).toNat (by omega) (x + 1) (y - 1)
            (d + 2 * (x - y) + 5) rfl p htail
          exact ⟨List.mem_append_right _ this.1, List.mem_append_right _ this.2⟩
    · rw [dif_neg hxy] at hp
      exact absurd hp (List.not_mem_nil p)


/-- C1: drawing the Line constructed from `Point::new(0,0)` to
`Point::new(3,3)` emits exactly the pixels `(0,0), (1,1), (2,2), (3,3)`,
in that order, each write carrying the Line's (default green) color. -/
theorem c1_line_0_0_to_3_3 :
    (Line.new (Point.new 0 0) (Point.new 3 3)).draw_line =
      some [((0 : Int), (0 : Int), Color.rgb 0 255 0), (1, 1, Color.rgb 0 255 0),
            (2, 2, Color.rgb 0 255 0), (3, 3, Color.rgb 0 255 0)] := by
  decide

/-- C2 counterexample: for the endpoints `(0,0)` and `(4,2)` the two draw
orders produce different pixel sets: the forward line emits `(1,0)` while
the reversed line does not (it emits `(3,2)` and `(1,1)` instead), so the
emitted pixel set is not symmetric under swapping start and end. -/
theorem c2_counterexample_swap_pixel_sets_differ :
    (Line.new (Point.new 0 0) (Point.new 4 2)).draw_line =
      some [((0 : Int), (0 : Int), Color.rgb 0 255 0), (1, 0, Color.rgb 0 255 0),
            (2, 1, Color.rgb 0 255 0), (3, 1, Color.rgb 0 255 0), (4, 2, Color.rgb 0 255 0)] ∧
    (Line.new (Point.new 4 2) (Point.new 0 0)).draw_line =
      some [((4 : Int), (2 : Int), Color.rgb 0 255 0), (3, 2, Color.rgb 0 255 0),
            (2, 1, Color.rgb 0 255 0), (1, 1, Color.rgb 0 255 0), (0, 0, Color.rgb 0 255 0)] ∧
    ((1 : Int), (0 : Int), Color.rgb 0 255 0) ∈
      [((0 : Int), (0 : Int), Color.rgb 0 255 0), (1, 0, Color.rgb 0 255 0),
       (2, 1, Color.rgb 0 255 0), (3, 1, Color.rgb 0 255 0), (4, 2, Color.rgb 0 255 0)] ∧
    ((1 : Int), (0 : Int), Color.rgb 0 255 0) ∉
      [((4 : Int), (2 : Int), Color.rgb 0 255 0), (3, 2, Color.rgb 0 255 0),
       (2, 1, Color.rgb 0 255 0), (1, 1, Color.rgb 0 255 0), (0, 0, Color.rgb 0 255 0)] := by
  refine ⟨by decide, by decide, by decide, by decide⟩

/-- C2 amended: for every pair of Points `a`, `b`, drawing `Line::new(b,a)`
emits the same number of pixels as `Line::new(a,b)`; the first pixel of
each is its own start point and the last its own end point (so the extreme
pixels swap roles), but the full pixel sets need not coincide. -/
theorem c2_amended_swap_preserves_count_and_swaps_extremes (a b : Point) :
    ∃ ps qs : List Pix,
      (Line.new a b).draw_line = some ps ∧
      (Line.new b a).draw_line = some qs ∧
      qs.length = ps.length ∧
      ps.head? = some (a.x, a.y, Color.rgb 0 255 0) ∧
      ps.getLast? = some (b.x, b.y, Color.rgb 0 255 0) ∧
      qs.head? = some (b.x, b.y, Color.rgb 0 255 0) ∧
      qs.getLast? = some (a.x, a.y, Color.rgb 0 255 0) := by
  obtain ⟨ps, h1, hl1, hh1, hg1⟩ := draw_line_spec (Line.new a b)
  obtain ⟨qs, h2, hl2, hh2, hg2⟩ := draw_line_spec (Line.new b a)
  simp only [Line.new] at h1 hl1 hh1 hg1 h2 hl2 hh2 hg2
  refine ⟨ps, qs, h1, h2, ?_, hh1, hg1, hh2, hg2⟩
  rw [hl1, hl2, abs_sub_comm a.x b.x, abs_sub_comm a.y b.y]

/-- C3: for every Line (endpoint arithmetic modelled without overflow, as
`Int`), drawing terminates — the loop reaches its `break` — and performs
exactly `max |x1-x0| |y1-y0| + 1` pixel emissions, one per loop step. -/
theorem c3_line_terminates_with_max_plus_one_pixels (l : Line) :
    ∃ ps : List Pix, l.draw_line = some ps ∧
      ps.length = (max |l.endp.x - l.start.x| |l.endp.y - l.start.y|).toNat + 1 := by
  obtain ⟨ps, h1, h2, -, -⟩ := draw_line_spec l
  exact ⟨ps, h1, h2⟩

/-- C4: `Rectangle::new(p1, p2)` stores as `top_left` the coordinate-wise
minimum of the two points and as `bottom_right` the coordinate-wise
maximum; consequently `Rectangle::new(p1, p2)` and `Rectangle::new(p2, p1)`
emit identical pixel writes when drawn, and in particular the corners
`(5,5), (1,1)` given backwards draw the same boundary as `(1,1), (5,5)`. -/
theorem c4_rectangle_corner_normalization :
    (∀ p1 p2 : Point,
      (Rectangle.new p1 p2).top_left = Point.new (min p1.x p2.x) (min p1.y p2.y) ∧
      (Rectangle.new p1 p2).bottom_right = Point.new (max p1.x p2.x) (max p1.y p2.y) ∧
      (Rectangle.new p1 p2).draw = (Rectangle.new p2 p1).draw) ∧
    (Rectangle.new (Point.new 5 5) (Point.new 1 1)).draw =
      (Rectangle.new (Point.new 1 1) (Point.new 5 5)).draw := by
  have key : ∀ p1 p2 : Point, Rectangle.new p1 p2 = Rectangle.new p2 p1 := by
    intro p1 p2
    simp [Rectangle.new, min_comm, max_comm]
  exact ⟨fun p1 p2 => ⟨rfl, rfl, by rw [key]⟩, by rw [key]⟩

/-- C5: the write sequence of `Triangle::draw` equals the concatenation of
the write sequences of the three boundary Lines `(p1,p2)`, `(p2,p3)`,
`(p3,p1)`, each Line's color replaced by the Triangle's color; hence a
pixel is emitted by the triangle iff it is emitted by one of the three
edge lines. -/
theorem c5_triangle_draw_is_edge_line_concat (t : Triangle) :
    ∃ a b c : List Pix,
      (triangle_edge_lines t).1.draw_line = some a ∧
      (triangle_edge_lines t).2.1.draw_line = some b ∧
      (triangle_edge_lines t).2.2.draw_line = some c ∧
      t.draw = some (a ++ b ++ c) ∧
      ∀ p : Pix, p ∈ a ++ b ++ c ↔ p ∈ a ∨ p ∈ b ∨ p ∈ c := by
  obtain ⟨a, ha, -, -, -⟩ := draw_line_spec (triangle_edge_lines t).1
  obtain ⟨b, hb, -, -, -⟩ := draw_line_spec (triangle_edge_lines t).2.1
  obtain ⟨c, hc, -, -, -⟩ := draw_line_spec (triangle_edge_lines t).2.2
  simp only [triangle_edge_lines, Line.new] at ha hb hc
  refine ⟨a, b, c, by simpa [triangle_edge_lines, Line.new] using ha,
    by simpa [triangle_edge_lines, Line.new] using hb,
    by simpa [triangle_edge_lines, Line.new] using hc, ?_, by simp [or_assoc]⟩
  simp only [Triangle.draw, Line.draw, Line.new]
  rw [ha, hb, hc]

/-- C6: every pixel `(px,py)` emitted by a Circle with radius `r ≥ 0`
satisfies that the half-up rounded Euclidean distance
`round (sqrt ((px-cx)^2 + (py-cy)^2))` differs from `r` by at most 1. -/
theorem c6_circle_pixels_within_one_of_radius (ci : Circle) (hr : 0 ≤ ci.radius) :
    ∀ px py : Int, ∀ pc : Color, (px, py, pc) ∈ ci.draw_circle →
      |roundDist px py ci.center.x ci.center.y - ci.radius| ≤ 1 := by
  obtain ⟨⟨cx, cy, cc⟩, r, c⟩ := ci
  simp only [Circle.draw_circle] at *
  intro px py pc hp
  rcases show r = 0 ∨ r = 1 ∨ 2 ≤ r by omega with rfl | rfl | h2
  · -- radius 0: all eight pixels coincide with the center
    rw [circleLoop, dif_pos (by norm_num), if_neg (by norm_num),
      circleLoop_eq_nil cx cy c (0 + 1) (0 - 1) _ (by norm_num)] at hp
    simp only [Prod.mk.injEq, List.append_nil, List.mem_cons, List.not_mem_nil,
      or_false] at hp
    norm_num at hp
    obtain ⟨rfl, rfl, -⟩ := hp
    norm_num [roundDist, roundNatSqrt_zero]
  · -- radius 1: the four unit-offset pixels
    rw [circleLoop, dif_pos (by norm_num), if_neg (by norm_num),
      circleLoop_eq_nil cx cy c (0 + 1) (1 - 1) _ (by norm_num)] at hp
    simp only [Prod.mk.injEq, List.append_nil, List.mem_cons, List.not_mem_nil,
      or_false] at hp
    rcases hp with h | h | h | h | h | h | h | h <;>
      (obtain ⟨ha, hb, -⟩ := h
       subst ha
       subst hb
       norm_num [roundDist, roundNatSqrt_one])
  · -- radius at least 2: use the loop invariant
    have hb := circleLoop_mem_bound cx cy c r h2 (r + 1 - 0).toNat 0 r (1 - r) rfl le_rfl
      (by ring) (fun _ => by constructor <;> omega) px py pc hp
    have hs0 : (0 : Int) ≤ (px - cx) ^ 2 + (py - cy) ^ 2 := by positivity
    show |(roundNatSqrt (((px - cx) ^ 2 + (py - cy) ^ 2).toNat) : Int) - r| ≤ 1
    set s : Int := (px - cx) ^ 2 + (py - cy) ^ 2 with hsdef
    have hsN : ((s.toNat : Int)) = s := Int.toNat_of_nonneg hs0
    have hle : roundNatSqrt s.toNat ≤ (r + 1).toNat := by
      apply roundNatSqrt_le
      have e1 : (((r + 1).toNat : Int)) = r + 1 := Int.toNat_of_nonneg (by omega)
      zify
      rw [hsN, e1]
      nlinarith [hb.2]
    have hge : (r - 2).toNat + 1 ≤ roundNatSqrt s.toNat := by
      apply le_roundNatSqrt
      have e1 : (((r - 2).toNat : Int)) = r - 2 := Int.toNat_of_nonneg (by omega)
      zify
      rw [hsN, e1]
      nlinarith [hb.1]
    rw [abs_le]
    constructor <;> omega

/-- Witness for C6 at the circle of radius 2 centered at the origin and
its topmost emitted pixel `(0, 2)`. -/
theorem c6_witness :
    0 ≤ (Circle.new (Point.new 0 0) 2).radius ∧
    |roundDist 0 2 (Circle.new (Point.new 0 0) 2).center.x
        (Circle.new (Point.new 0 0) 2).center.y - (Circle.new (Point.new 0 0) 2).radius| ≤ 1 := by
  have hmem : ((0 : Int), (2 : Int), Color.rgb 255 0 255) ∈
      (Circle.new (Point.new 0 0) 2).draw_circle := by
    simp only [Circle.new, Circle.draw_circle, Point.new]
    rw [circleLoop, dif_pos (by norm_num)]
    apply List.mem_append_left
    norm_num
  exact ⟨by norm_num [Circle.new],
    c6_circle_pixels_within_one_of_radius (Circle.new (Point.new 0 0) 2)
      (by norm_num [Circle.new]) 0 2 (Color.rgb 255 0 255) hmem⟩

/-- C7: for a Circle with radius `r ≥ 0`, the set of emitted pixels is
invariant under reflection through the horizontal axis through the center
(`y ↦ 2 cy - y`) and under reflection through the vertical axis through
the center (`x ↦ 2 cx - x`). -/
theorem c7_circle_pixel_set_reflection_symmetric (ci : Circle) (hr : 0 ≤ ci.radius)
    (p : Pix) :
    (p ∈ ci.draw_circle ↔ reflectH ci.center.y p ∈ ci.draw_circle) ∧
    (p ∈ ci.draw_circle ↔ reflectV ci.center.x p ∈ ci.draw_circle) := by
  obtain ⟨⟨cx, cy, cc⟩, r, c⟩ := ci
  simp only [Circle.draw_circle]
  constructor
  · constructor
    · intro hp
      exact (circleLoop_reflect_mem cx cy c (r + 1 - 0).toNat 0 r (1 - r) rfl p hp).1
    · intro hp
      have h1 := (circleLoop_reflect_mem cx cy c (r + 1 - 0).toNat 0 r (1 - r) rfl _ hp).1
      rwa [reflectH_involutive] at h1
  · constructor
    · intro hp
      exact (circleLoop_reflect_mem cx cy c (r + 1 - 0).toNat 0 r (1 - r) rfl p hp).2
    · intro hp
      have h1 := (circleLoop_reflect_mem cx cy c (r + 1 - 0).toNat 0 r (1 - r) rfl _ hp).2
      rwa [reflectV_involutive] at h1

/-- Witness for C7 at the circle of radius 1 centered at the origin and
the pixel `(0, 1)`. -/
theorem c7_witness :
    0 ≤ (Circle.new (Point.new 0 0) 1).radius ∧
    (((0 : Int), (1 : Int), Color.rgb 255 0 255) ∈ (Circle.new (Point.new 0 0) 1).draw_circle ↔
      reflectH (Circle.new (Point.new 0 0) 1).center.y ((0 : Int), (1 : Int), Color.rgb 255 0 255) ∈
        (Circle.new (Point.new 0 0) 1).draw_circle) ∧
    (((0 : Int), (1 : Int), Color.rgb 255 0 255) ∈ (Circle.new (Point.new 0 0) 1).draw_circle ↔
      reflectV (Circle.new (Point.new 0 0) 1).center.x ((0 : Int), (1 : Int), Color.rgb 255 0 255) ∈
        (Circle.new (Point.new 0 0) 1).draw_circle) :=
  ⟨by norm_num [Circle.new],
   (c7_circle_pixel_set_reflection_symmetric (Circle.new (Point.new 0 0) 1)
     (by norm_num [Circle.new]) ((0 : Int), (1 : Int), Color.rgb 255 0 255)).1,
   (c7_circle_pixel_set_reflection_symmetric (Circle.new (Point.new 0 0) 1)
     (by norm_num [Circle.new]) ((0 : Int), (1 : Int), Color.rgb 255 0 255)).2⟩

/-- C8: for radius 0 the emitted pixel coordinates all equal the center
(eight coincident writes), and in particular `Circle::new(Point::new(10,10), 0)`
emits writes only at `(10,10)`. -/
theorem c8_radius_zero_single_coordinate :
    (∀ cen : Point, ((Circle.new cen 0).draw_circle).map (fun p => (p.1, p.2.1)) =
      List.replicate 8 (cen.x, cen.y)) ∧
    ((Circle.new (Point.new 10 10) 0).draw_circle).map (fun p => (p.1, p.2.1)) =
      List.replicate 8 ((10 : Int), (10 : Int)) := by
  have key : ∀ cen : Point, ((Circle.new cen 0).draw_circle).map (fun p => (p.1, p.2.1)) =
      List.replicate 8 (cen.x, cen.y) := by
    intro cen
    simp only [Circle.draw_circle, Circle.new]
    norm_num
    rw [circleLoop]
    norm_num
    rw [circleLoop]
    norm_num [List.replicate]
  exact ⟨key, key (Point.new 10 10)⟩

/-- C9: a Line whose start and end coincide emits exactly one pixel, at
that coordinate, carrying the Line's color. -/
theorem c9_degenerate_line_single_pixel (l : Line) (hx : l.start.x = l.endp.x)
    (hy : l.start.y = l.endp.y) :
    l.draw_line = some [(l.start.x, l.start.y, l.color)] := by
  rw [Line.draw_line]
  simp [hx, hy, bresLoop]

/-- Witness for C9 at the degenerate line from `(2,3)` to `(2,3)`. -/
theorem c9_witness :
    (Line.new (Point.new 2 3) (Point.new 2 3)).start.x =
        (Line.new (Point.new 2 3) (Point.new 2 3)).endp.x ∧
    (Line.new (Point.new 2 3) (Point.new 2 3)).start.y =
        (Line.new (Point.new 2 3) (Point.new 2 3)).endp.y ∧
    (Line.new (Point.new 2 3) (Point.new 2 3)).draw_line =
      some [((2 : Int), (3 : Int), Color.rgb 0 255 0)] :=
  ⟨rfl, rfl, c9_degenerate_line_single_pixel (Line.new (Point.new 2 3) (Point.new 2 3)) rfl rfl⟩

/-- C10: `Circle::new` stores any radius unchanged (no validation), and a
Circle with negative radius draws nothing: the loop guard `x ≤ y` fails
immediately since `x` starts at 0 and `y` at the radius. -/
theorem c10_negative_radius_draws_nothing (cen : Point) (r : Int) :
    (Circle.new cen r).radius = r ∧ (r < 0 → (Circle.new cen r).draw_circle = []) := by
  refine ⟨rfl, fun hr => ?_⟩
  rw [Circle.draw_circle]
  rw [circleLoop]
  simp only [Circle.new]
  rw [dif_neg (by omega)]

/-- Witness for C10 at radius -1. -/
theorem c10_witness :
    (Circle.new (Point.new 0 0) (-1)).radius = -1 ∧
    (Circle.new (Point.new 0 0) (-1)).draw_circle = [] :=
  ⟨(c10_negative_radius_draws_nothing (Point.new 0 0) (-1)).1,
   (c10_negative_radius_draws_nothing (Point.new 0 0) (-1)).2 (by norm_num)⟩

end GS
